import Mathlib

/-!
Verification of the MLFQ (multi-level feedback queue) scheduler from
`mlfq_scheduler/src/mlfq.rs`.

Modelling conventions:
* Rust `Vec<T>` is a Lean `List T`; `push` appends at the tail (`xs ++ [x]`)
  and `pop` removes the last element (`getLast?` / `dropLast`).
* `u32` and `usize` are modelled as `Nat`.  The only subtraction performed by
  the code, `remaining_time -= executed_time`, never underflows because
  `executed_time = min remaining_time quantum`, so truncated `Nat` subtraction
  agrees with the machine operation.
* A Rust panic (out-of-bounds `Vec` indexing) is modelled by returning `none`;
  operations that can index out of bounds return `Option MLFQ`.
-/

structure Process where
  id : Nat
  priority : Nat
  remaining_time : Nat
  total_executed_time : Nat
deriving DecidableEq

structure MLFQ where
  queues : List (List Process)
  num_levels : Nat
  time_quanta : List Nat
  current_time : Nat
deriving DecidableEq

namespace MLFQ

/-- `MLFQ::new`: `num_levels` empty queues, the given quanta, time 0. -/
def new (num_levels : Nat) (time_quanta : List Nat) : MLFQ :=
  { queues := List.replicate num_levels []
    num_levels := num_levels
    time_quanta := time_quanta
    current_time := 0 }

/-- `MLFQ::add_process`: push onto queue `priority` when in range, otherwise
onto the lowest-priority queue `num_levels - 1`.  `none` models the panic when
the target queue index is out of bounds of `queues`. -/
def add_process (m : MLFQ) (process : Process) : Option MLFQ :=
  let priority := process.priority
  if priority < m.num_levels then
    if priority < m.queues.length then
      some { m with
        queues := m.queues.set priority ((m.queues.getD priority []) ++ [process]) }
    else none
  else
    if m.num_levels - 1 < m.queues.length then
      some { m with
        queues := m.queues.set (m.num_levels - 1)
          ((m.queues.getD (m.num_levels - 1) []) ++ [process]) }
    else none

/-- The amount of time executed by one dispatch:
`if remaining_time > quantum then quantum else remaining_time`. -/
def executedTimeOf (process : Process) (time_quantum : Nat) : Nat :=
  if process.remaining_time > time_quantum then time_quantum
  else process.remaining_time

/-- The field updates applied to the popped process during one dispatch. -/
def runProcess (process : Process) (time_quantum : Nat) : Process :=
  let executed_time := executedTimeOf process time_quantum
  { process with
    remaining_time := process.remaining_time - executed_time
    total_executed_time := process.total_executed_time + executed_time }

/-- `MLFQ::execute_process`: pop the last process of queue `queue_index`, run
it for at most one quantum, and demote it (priority += 1, push onto the next
queue) when it is unfinished and a next queue exists.  `none` models the
panics from out-of-bounds indexing into `queues` or `time_quanta`. -/
def execute_process (m : MLFQ) (queue_index : Nat) : Option MLFQ :=
  if queue_index < m.queues.length then
    match (m.queues.getD queue_index []).getLast? with
    | none => some m
    | some process =>
      if queue_index < m.time_quanta.length then
        let time_quantum := m.time_quanta.getD queue_index 0
        let executed_time := executedTimeOf process time_quantum
        let process' := runProcess process time_quantum
        let queues₁ := m.queues.set queue_index ((m.queues.getD queue_index []).dropLast)
        if process'.remaining_time > 0 then
          if queue_index + 1 < m.num_levels then
            if queue_index + 1 < queues₁.length then
              some { m with
                current_time := m.current_time + executed_time
                queues := queues₁.set (queue_index + 1)
                  ((queues₁.getD (queue_index + 1) []) ++
                    [{ process' with priority := process'.priority + 1 }]) }
            else none
          else
            some { m with
              current_time := m.current_time + executed_time
              queues := queues₁ }
        else
          some { m with
            current_time := m.current_time + executed_time
            queues := queues₁ }
      else none
  else none

/-- `process.priority = 0`: the reset applied to each process moved by
`priority_boost`. -/
def zeroPrio (p : Process) : Process := { p with priority := 0 }

/-- One iteration of the `priority_boost` loop body for queue `i`: drain queue
`i` (popping reverses it), reset each drained priority to 0, and push the
drained processes onto queue 0. -/
def drainInto (qs : List (List Process)) (i : Nat) : List (List Process) :=
  let src := qs.getD i []
  ((qs.set i []).set 0 ((qs.getD 0 []) ++ (src.reverse.map zeroPrio)))

/-- The `priority_boost` loop over the given queue indices; `none` models the
panic when an index is out of bounds. -/
def boostLoop (qs : List (List Process)) : List Nat → Option (List (List Process))
  | [] => some qs
  | i :: is => if i < qs.length then boostLoop (drainInto qs i) is else none

/-- `MLFQ::priority_boost`: for each queue index in `1 .. num_levels`, move
every process of that queue onto queue 0 with priority reset to 0. -/
def priority_boost (m : MLFQ) : Option MLFQ :=
  (boostLoop m.queues (List.range' 1 (m.num_levels - 1))).map
    fun qs => { m with queues := qs }

/-- `MLFQ::update_time`: add the elapsed time to the clock, then boost iff the
new clock value is a multiple of the boost interval 100. -/
def update_time (m : MLFQ) (elapsed_time : Nat) : Option MLFQ :=
  let m₁ := { m with current_time := m.current_time + elapsed_time }
  if m₁.current_time % 100 = 0 then priority_boost m₁ else some m₁

/-- Well-formedness maintained by the driver contract: `queues` and
`time_quanta` both have length `num_levels`. -/
def WF (m : MLFQ) : Prop :=
  m.queues.length = m.num_levels ∧ m.time_quanta.length = m.num_levels

instance : DecidablePred WF := fun _ =>
  inferInstanceAs (Decidable (_ ∧ _))

/-- Total number of processes tracked by the scheduler. -/
def numProcs (m : MLFQ) : Nat := m.queues.flatten.length

/-- Work associated with a process; the quantity the scheduler conserves. -/
def work (p : Process) : Nat := p.remaining_time + p.total_executed_time

/-- Multiset of the work values of all tracked processes. -/
def worksOf (m : MLFQ) : Multiset Nat := (m.queues.flatten.map work : List Nat)

/-- In every queue other than the lowest tier, each process's `priority`
field equals the index of the queue holding it.  This is the reachable-state
invariant justifying the demotion claim (see `reachable_prioMatch`). -/
def PrioMatch (m : MLFQ) : Prop :=
  ∀ i, i + 1 < m.num_levels → ∀ p ∈ m.queues.getD i [], p.priority = i

/-- The scheduler states producible through the public operations. -/
inductive Reachable : MLFQ → Prop
  | new (n : Nat) (tq : List Nat) : Reachable (MLFQ.new n tq)
  | add {m : MLFQ} {q : Process} {m' : MLFQ} :
      Reachable m → add_process m q = some m' → Reachable m'
  | exec {m : MLFQ} {i : Nat} {m' : MLFQ} :
      Reachable m → execute_process m i = some m' → Reachable m'
  | boost {m m' : MLFQ} :
      Reachable m → priority_boost m = some m' → Reachable m'
  | tick {m : MLFQ} {e : Nat} {m' : MLFQ} :
      Reachable m → update_time m e = some m' → Reachable m'

/-- One public scheduler operation, for stating properties of operation
sequences. -/
inductive Op where
  | add (p : Process)
  | exec (i : Nat)
  | boost
  | tick (e : Nat)
deriving DecidableEq

/-- Apply one public operation. -/
def applyOp (m : MLFQ) : Op → Option MLFQ
  | .add p => add_process m p
  | .exec i => execute_process m i
  | .boost => priority_boost m
  | .tick e => update_time m e

/-- Run a sequence of public operations, failing if any operation panics. -/
def runOps (m : MLFQ) : List Op → Option MLFQ
  | [] => some m
  | op :: ops => (applyOp m op).bind fun m₁ => runOps m₁ ops

/-- Work values of the processes injected by the `add` operations of a
sequence. -/
def worksAdded : List Op → Multiset Nat
  | [] => 0
  | Op.add p :: ops => work p ::ₘ worksAdded ops
  | _ :: ops => worksAdded ops

end MLFQ

section ListLemmas

variable {α : Type _} {β : Type _}

theorem getD_set_self (qs : List α) (i : Nat) (v d : α) (h : i < qs.length) :
    (qs.set i v).getD i d = v := by
  simp [List.getD_eq_getElem?_getD, List.getElem?_set_self h]

theorem getD_set_ne (qs : List α) {i j : Nat} (v d : α) (h : i ≠ j) :
    (qs.set i v).getD j d = qs.getD j d := by
  simp [List.getD_eq_getElem?_getD, List.getElem?_set_ne h]

/-- Replacing entry `i` of a list of lists exchanges exactly that entry's
contribution to the flattened multiset. -/
theorem coe_flatten_set (qs : List (List α)) (i : Nat) (v : List α)
    (h : i < qs.length) :
    ((qs.set i v).flatten : Multiset α) + (qs.getD i [] : Multiset α)
      = (qs.flatten : Multiset α) + (v : Multiset α) := by
  induction qs generalizing i with
  | nil => simp at h
  | cons q qs ih =>
    cases i with
    | zero =>
      simp only [List.set_cons_zero, List.flatten_cons, List.getD_cons_zero,
        ← Multiset.coe_add]
      abel
    | succ i =>
      simp only [List.set_cons_succ, List.flatten_cons, List.getD_cons_succ,
        ← Multiset.coe_add]
      rw [add_assoc, ih i (by simpa using h), ← add_assoc]

/-- The indexed reads `qs[1], …, qs[len-1]` are exactly `qs.drop 1`. -/
theorem map_getD_range'_one (qs : List (List α)) :
    (List.range' 1 (qs.length - 1)).map (fun i => qs.getD i []) = qs.drop 1 := by
  apply List.ext_getElem
  · simp
  · intro i h₁ h₂
    simp only [List.getElem_map, List.getElem_range'_1, List.getElem_drop]
    rw [List.getD_eq_getElem?_getD, List.getElem?_eq_getElem (by
      simp only [List.length_map, List.length_range'] at h₁
      omega)]
    simp [Nat.add_comm 1 i]

end ListLemmas

namespace MLFQ

/-- Characterisation of `execute_process` on a queue whose last element is
`p`, with both indexings in bounds. -/
theorem execute_process_eq (m : MLFQ) (tier : Nat) (p : Process)
    (hq : tier < m.queues.length) (ht : tier < m.time_quanta.length)
    (hlast : (m.queues.getD tier []).getLast? = some p) :
    execute_process m tier =
      (let time_quantum := m.time_quanta.getD tier 0
       let executed_time := executedTimeOf p time_quantum
       let process' := runProcess p time_quantum
       let queues₁ := m.queues.set tier ((m.queues.getD tier []).dropLast)
       if process'.remaining_time > 0 then
         if tier + 1 < m.num_levels then
           if tier + 1 < queues₁.length then
             some { m with
               current_time := m.current_time + executed_time
               queues := queues₁.set (tier + 1)
                 ((queues₁.getD (tier + 1) []) ++
                   [{ process' with priority := process'.priority + 1 }]) }
           else none
         else
           some { m with
             current_time := m.current_time + executed_time
             queues := queues₁ }
       else
         some { m with
           current_time := m.current_time + executed_time
           queues := queues₁ }) := by
  simp only [execute_process, if_pos hq, hlast, if_pos ht]

/-- Dispatch branch: unfinished process, next queue exists. -/
theorem execute_process_eq_demote (m : MLFQ) (t : Nat) (p : Process)
    (hq : t < m.queues.length) (ht : t < m.time_quanta.length)
    (hlast : (m.queues.getD t []).getLast? = some p)
    (hrem : 0 < (runProcess p (m.time_quanta.getD t 0)).remaining_time)
    (hdem : t + 1 < m.num_levels) (hlen : t + 1 < m.queues.length) :
    execute_process m t = some { m with
      current_time := m.current_time + executedTimeOf p (m.time_quanta.getD t 0)
      queues := (m.queues.set t ((m.queues.getD t []).dropLast)).set (t + 1)
        (((m.queues.set t ((m.queues.getD t []).dropLast)).getD (t + 1) []) ++
          [{ id := p.id, priority := p.priority + 1, remaining_time := p.remaining_time - executedTimeOf p (m.time_quanta.getD t 0), total_executed_time := p.total_executed_time + executedTimeOf p (m.time_quanta.getD t 0) }]) } := by
  rw [execute_process_eq m t p hq ht hlast]
  simp only [List.length_set, if_pos hrem, if_pos hdem, if_pos hlen]
  rfl

/-- Dispatch branch: unfinished process at the lowest tier, dropped. -/
theorem execute_process_eq_droplowest (m : MLFQ) (t : Nat) (p : Process)
    (hq : t < m.queues.length) (ht : t < m.time_quanta.length)
    (hlast : (m.queues.getD t []).getLast? = some p)
    (hrem : 0 < (runProcess p (m.time_quanta.getD t 0)).remaining_time)
    (hnodem : ¬ (t + 1 < m.num_levels)) :
    execute_process m t = some { m with
      current_time := m.current_time + executedTimeOf p (m.time_quanta.getD t 0)
      queues := m.queues.set t ((m.queues.getD t []).dropLast) } := by
  rw [execute_process_eq m t p hq ht hlast]
  simp only [if_pos hrem, if_neg hnodem]

/-- Dispatch branch: the process finishes (remaining time hits zero). -/
theorem execute_process_eq_finish (m : MLFQ) (t : Nat) (p : Process)
    (hq : t < m.queues.length) (ht : t < m.time_quanta.length)
    (hlast : (m.queues.getD t []).getLast? = some p)
    (hfin : (runProcess p (m.time_quanta.getD t 0)).remaining_time = 0) :
    execute_process m t = some { m with
      current_time := m.current_time + executedTimeOf p (m.time_quanta.getD t 0)
      queues := m.queues.set t ((m.queues.getD t []).dropLast) } := by
  rw [execute_process_eq m t p hq ht hlast]
  have hnot : ¬ ((runProcess p (m.time_quanta.getD t 0)).remaining_time > 0) := by omega
  simp only [if_neg hnot]

theorem drainInto_length (qs : List (List Process)) (i : Nat) :
    (drainInto qs i).length = qs.length := by
  simp [drainInto]

theorem drainInto_getD_zero (qs : List (List Process)) (i : Nat)
    (h0 : 0 < qs.length) :
    (drainInto qs i).getD 0 []
      = (qs.getD 0 []) ++ ((qs.getD i []).reverse.map zeroPrio) := by
  simp only [drainInto]
  exact getD_set_self _ 0 _ _ (by simpa using h0)

theorem drainInto_getD_self (qs : List (List Process)) (i : Nat)
    (hi : i < qs.length) (hne : i ≠ 0) :
    (drainInto qs i).getD i [] = [] := by
  simp only [drainInto]
  rw [getD_set_ne _ _ _ (Ne.symm hne)]
  exact getD_set_self _ i _ _ hi

theorem drainInto_getD_other (qs : List (List Process)) (i j : Nat)
    (hj0 : j ≠ 0) (hji : j ≠ i) :
    (drainInto qs i).getD j [] = qs.getD j [] := by
  simp only [drainInto]
  rw [getD_set_ne _ _ _ (Ne.symm hj0), getD_set_ne _ _ _ (Ne.symm hji)]

/-- Draining queue `i` into queue 0 moves exactly the contents of queue `i`,
priority-zeroed, into the flattened multiset. -/
theorem coe_flatten_drainInto (qs : List (List Process)) (i : Nat)
    (hi : i < qs.length) (hne : i ≠ 0) :
    ((drainInto qs i).flatten : Multiset Process) + (qs.getD i [] : Multiset Process)
      = (qs.flatten : Multiset Process)
        + ((qs.getD i []).map zeroPrio : Multiset Process) := by
  have h0 : 0 < qs.length := Nat.lt_of_le_of_lt (Nat.zero_le i) hi
  have e₁ := coe_flatten_set qs i [] hi
  have e₂ := coe_flatten_set (qs.set i []) 0
    ((qs.getD 0 []) ++ ((qs.getD i []).reverse.map zeroPrio)) (by simpa using h0)
  rw [getD_set_ne _ _ _ hne] at e₂
  have hdrain : ((drainInto qs i).flatten : Multiset Process)
      = ((qs.set i []).flatten : Multiset Process)
        + ((qs.getD i []).map zeroPrio : Multiset Process) := by
    have : ((((qs.getD 0 []) ++ ((qs.getD i []).reverse.map zeroPrio)) : List Process) : Multiset Process)
        = (qs.getD 0 [] : Multiset Process)
          + ((qs.getD i []).map zeroPrio : Multiset Process) := by
      rw [← Multiset.coe_add]
      congr 1
      rw [List.map_reverse, Multiset.coe_reverse]
    rw [this] at e₂
    have e₂' : ((drainInto qs i).flatten : Multiset Process) + (qs.getD 0 [] : Multiset Process)
        = (((qs.set i []).flatten : Multiset Process)
            + ((qs.getD i []).map zeroPrio : Multiset Process))
          + (qs.getD 0 [] : Multiset Process) := by
      rw [drainInto]
      rw [e₂]
      abel
    exact add_right_cancel e₂'
  rw [hdrain]
  simp only [Multiset.coe_nil] at e₁
  calc ((qs.set i []).flatten : Multiset Process)
        + ((qs.getD i []).map zeroPrio : Multiset Process)
        + (qs.getD i [] : Multiset Process)
      = ((qs.set i []).flatten : Multiset Process) + (qs.getD i [] : Multiset Process)
        + ((qs.getD i []).map zeroPrio : Multiset Process) := by abel
    _ = (qs.flatten : Multiset Process)
        + ((qs.getD i []).map zeroPrio : Multiset Process) := by
        rw [e₁, add_zero]

/-- Full characterisation of the `priority_boost` loop over a duplicate-free
list of positive queue indices. -/
theorem boostLoop_spec : ∀ (is : List Nat) (qs qs' : List (List Process)),
    boostLoop qs is = some qs' → is.Nodup → (∀ i ∈ is, 0 < i) →
    qs'.length = qs.length ∧
    (∀ j ∈ is, qs'.getD j [] = []) ∧
    (∀ j, j ∉ is → j ≠ 0 → qs'.getD j [] = qs.getD j []) ∧
    (qs'.getD 0 [] : Multiset Process)
      = (qs.getD 0 [] : Multiset Process)
        + ((is.map fun i => (qs.getD i []).map zeroPrio).flatten : Multiset Process)
  | [], qs, qs', h, _, _ => by
    simp only [boostLoop] at h
    cases h
    simp
  | i :: is, qs, qs', h, hnd, hpos => by
    simp only [boostLoop] at h
    by_cases hi : i < qs.length
    · rw [if_pos hi] at h
      have hi0 : 0 < i := hpos i (by simp)
      have hnotmem : i ∉ is := (List.nodup_cons.mp hnd).1
      obtain ⟨hlen, hmem, hother, hzero⟩ :=
        boostLoop_spec is (drainInto qs i) qs' h hnd.of_cons
          (fun j hj => hpos j (by simp [hj]))
      refine ⟨hlen.trans (drainInto_length qs i), ?_, ?_, ?_⟩
      · intro j hj
        rcases List.mem_cons.mp hj with rfl | hj'
        · rw [hother j hnotmem (Nat.pos_iff_ne_zero.mp hi0)]
          exact drainInto_getD_self qs j hi (Nat.pos_iff_ne_zero.mp hi0)
        · exact hmem j hj'
      · intro j hj hj0
        have hji : j ≠ i := fun hc => hj (hc ▸ List.mem_cons_self i is)
        rw [hother j (fun hc => hj (List.mem_cons_of_mem i hc)) hj0]
        exact drainInto_getD_other qs i j hj0 hji
      · have hmapeq : is.map (fun i' => ((drainInto qs i).getD i' []).map zeroPrio)
            = is.map (fun i' => (qs.getD i' []).map zeroPrio) := by
          apply List.map_congr_left
          intro a ha
          rw [drainInto_getD_other qs i a
            (Nat.pos_iff_ne_zero.mp (hpos a (List.mem_cons_of_mem i ha)))
            (fun hc => hnotmem (hc ▸ ha))]
        rw [hzero, hmapeq, drainInto_getD_zero qs i (Nat.lt_of_le_of_lt (Nat.zero_le i) hi)]
        have : (((qs.getD 0 []) ++ ((qs.getD i []).reverse.map zeroPrio) : List Process) : Multiset Process)
            = (qs.getD 0 [] : Multiset Process)
              + ((qs.getD i []).map zeroPrio : Multiset Process) := by
          rw [← Multiset.coe_add]
          congr 1
          rw [List.map_reverse, Multiset.coe_reverse]
        rw [this]
        simp only [List.map_cons, List.flatten_cons, ← Multiset.coe_add]
        abel
    · rw [if_neg hi] at h
      cases h

/-- The `priority_boost` loop preserves the multiset image of the flattened
queues under any function that ignores the `priority` field. -/
theorem boostLoop_coe_map {β : Type _} (f : Process → β)
    (hf : ∀ p, f (zeroPrio p) = f p) :
    ∀ (is : List Nat) (qs qs' : List (List Process)),
    boostLoop qs is = some qs' → (∀ i ∈ is, 0 < i) →
    (qs'.flatten.map f : Multiset β) = (qs.flatten.map f : Multiset β)
  | [], qs, qs', h, _ => by
    simp only [boostLoop] at h
    cases h
    rfl
  | i :: is, qs, qs', h, hpos => by
    simp only [boostLoop] at h
    by_cases hi : i < qs.length
    · rw [if_pos hi] at h
      have hi0 : 0 < i := hpos i (by simp)
      rw [boostLoop_coe_map f hf is (drainInto qs i) qs' h
        (fun j hj => hpos j (by simp [hj]))]
      have e := congrArg (Multiset.map f) (coe_flatten_drainInto qs i hi
        (Nat.pos_iff_ne_zero.mp hi0))
      simp only [Multiset.map_add, Multiset.map_coe] at e
      rw [List.map_map] at e
      have : (qs.getD i []).map (f ∘ zeroPrio) = (qs.getD i []).map f :=
        List.map_congr_left (fun a _ => hf a)
      rw [this] at e
      exact add_right_cancel e
    · rw [if_neg hi] at h
      cases h

/-- `priority_boost` changes only `queues`. -/
theorem priority_boost_fields (m m' : MLFQ) (h : priority_boost m = some m') :
    m'.num_levels = m.num_levels ∧ m'.time_quanta = m.time_quanta ∧
    m'.current_time = m.current_time := by
  simp only [priority_boost, Option.map_eq_some'] at h
  obtain ⟨qs, -, rfl⟩ := h
  exact ⟨rfl, rfl, rfl⟩

theorem getD_replicate_nil (n i : Nat) :
    (List.replicate n ([] : List Process)).getD i [] = [] := by
  rw [List.getD_eq_getElem?_getD, List.getElem?_replicate]
  split <;> rfl

theorem prioMatch_new (n : Nat) (tq : List Nat) : PrioMatch (MLFQ.new n tq) := by
  intro i _ p hp
  rw [MLFQ.new] at hp
  simp only [getD_replicate_nil] at hp
  cases hp

theorem prioMatch_add (m : MLFQ) (q : Process) (m' : MLFQ)
    (h : add_process m q = some m') (hpm : PrioMatch m) : PrioMatch m' := by
  simp only [add_process] at h
  split_ifs at h with h₁ h₂ h₃
  all_goals cases h
  · intro i hi p hp
    have hi' : i + 1 < m.num_levels := hi
    have hp' : p ∈ (m.queues.set q.priority
        ((m.queues.getD q.priority []) ++ [q])).getD i [] := hp
    by_cases hik : i = q.priority
    · rw [hik, getD_set_self _ _ _ _ h₂] at hp'
      rcases List.mem_append.mp hp' with hp'' | hp''
      · rw [← hik] at hp''
        exact hpm i hi' p hp''
      · rw [List.mem_singleton.mp hp'', hik]
    · rw [getD_set_ne _ _ _ (fun hc => hik hc.symm)] at hp'
      exact hpm i hi' p hp'
  · intro i hi p hp
    have hi' : i + 1 < m.num_levels := hi
    have hp' : p ∈ (m.queues.set (m.num_levels - 1)
        ((m.queues.getD (m.num_levels - 1) []) ++ [q])).getD i [] := hp
    by_cases hik : i = m.num_levels - 1
    · omega
    · rw [getD_set_ne _ _ _ (fun hc => hik hc.symm)] at hp'
      exact hpm i hi' p hp'

theorem runProcess_priority (p : Process) (tq : Nat) :
    (runProcess p tq).priority = p.priority := rfl

theorem prioMatch_dropLast_case (m : MLFQ) (t : Nat) (hpm : PrioMatch m)
    (hq : t < m.queues.length) :
    ∀ i, i + 1 < m.num_levels →
      ∀ p ∈ (m.queues.set t ((m.queues.getD t []).dropLast)).getD i [],
        p.priority = i := by
  intro i hi p hp
  by_cases hit : i = t
  · rw [hit, getD_set_self _ _ _ _ hq] at hp
    exact hpm i hi p (by rw [hit]; exact List.mem_of_mem_dropLast hp)
  · rw [getD_set_ne _ _ _ (fun hc => hit hc.symm)] at hp
    exact hpm i hi p hp

theorem prioMatch_execute (m : MLFQ) (t : Nat) (m' : MLFQ)
    (h : execute_process m t = some m') (hpm : PrioMatch m) : PrioMatch m' := by
  by_cases hq : t < m.queues.length
  · cases hl : (m.queues.getD t []).getLast? with
    | none =>
      simp only [execute_process, if_pos hq, hl] at h
      cases h
      exact hpm
    | some p =>
      by_cases ht : t < m.time_quanta.length
      · have hmem : p ∈ m.queues.getD t [] := List.mem_of_getLast?_eq_some hl
        rcases Nat.eq_zero_or_pos ((runProcess p (m.time_quanta.getD t 0)).remaining_time)
          with hfin | hrem
        · rw [execute_process_eq_finish m t p hq ht hl hfin] at h
          cases h
          intro i hi p' hp'
          exact prioMatch_dropLast_case m t hpm hq i hi p' hp'
        · by_cases hdem : t + 1 < m.num_levels
          · by_cases hlen : t + 1 < m.queues.length
            · rw [execute_process_eq_demote m t p hq ht hl hrem hdem hlen] at h
              cases h
              intro i hi p' hp'
              have hi' : i + 1 < m.num_levels := hi
              have hp'' : p' ∈ ((m.queues.set t ((m.queues.getD t []).dropLast)).set (t + 1)
                  (((m.queues.set t ((m.queues.getD t []).dropLast)).getD (t + 1) []) ++
                    [{ id := p.id, priority := p.priority + 1, remaining_time := p.remaining_time - executedTimeOf p (m.time_quanta.getD t 0), total_executed_time := p.total_executed_time + executedTimeOf p (m.time_quanta.getD t 0) }])).getD
                  i [] := hp'
              by_cases hi1 : i = t + 1
              · rw [hi1, getD_set_self _ _ _ _ (by simpa using hlen)] at hp''
                rcases List.mem_append.mp hp'' with hp₃ | hp₃
                · rw [getD_set_ne _ _ _ (by omega)] at hp₃
                  rw [hi1] at hi' ⊢
                  exact hpm (t + 1) hi' p' hp₃
                · rw [List.mem_singleton.mp hp₃, hi1]
                  show p.priority + 1 = t + 1
                  rw [hpm t hdem p hmem]
              · rw [getD_set_ne _ _ _ (fun hc => hi1 hc.symm)] at hp''
                exact prioMatch_dropLast_case m t hpm hq i hi' p' hp''
            · rw [execute_process_eq m t p hq ht hl] at h
              simp only [List.length_set, if_pos hrem, if_pos hdem, if_neg hlen] at h
              exact Option.noConfusion h
          · rw [execute_process_eq_droplowest m t p hq ht hl hrem hdem] at h
            cases h
            intro i hi p' hp'
            exact prioMatch_dropLast_case m t hpm hq i hi p' hp'
      · simp only [execute_process, if_pos hq, hl, if_neg ht] at h
        exact Option.noConfusion h
  · simp only [execute_process, if_neg hq] at h
    exact Option.noConfusion h

theorem prioMatch_boost (m m' : MLFQ) (h : priority_boost m = some m')
    (hpm : PrioMatch m) : PrioMatch m' := by
  simp only [priority_boost, Option.map_eq_some'] at h
  obtain ⟨qs', hloop, rfl⟩ := h
  have hpos : ∀ i ∈ List.range' 1 (m.num_levels - 1), 0 < i := by
    intro i hi
    have := List.mem_range'.mp hi
    omega
  obtain ⟨hlen, hmem, hother, hzero⟩ :=
    boostLoop_spec _ m.queues qs' hloop (List.nodup_range' 1 _) hpos
  intro i hi p hp
  simp only at hi hp ⊢
  rcases Nat.eq_zero_or_pos i with rfl | hipos
  · have : p ∈ (qs'.getD 0 [] : Multiset Process) := Multiset.mem_coe.mpr hp
    rw [hzero] at this
    rcases Multiset.mem_add.mp this with h₀ | h₀
    · exact hpm 0 hi p (Multiset.mem_coe.mp h₀)
    · have h₁ := Multiset.mem_coe.mp h₀
      obtain ⟨l, hl, hpl⟩ := List.mem_flatten.mp h₁
      obtain ⟨j, -, rfl⟩ := List.mem_map.mp hl
      obtain ⟨p₀, -, rfl⟩ := List.mem_map.mp hpl
      rfl
  · have hin : i ∈ List.range' 1 (m.num_levels - 1) := by
      rw [List.mem_range']
      refine ⟨i - 1, by omega, by omega⟩
    rw [hmem i hin] at hp
    cases hp

theorem prioMatch_tick (m : MLFQ) (e : Nat) (m' : MLFQ)
    (h : update_time m e = some m') (hpm : PrioMatch m) : PrioMatch m' := by
  simp only [update_time] at h
  split_ifs at h with hb
  · exact prioMatch_boost _ _ h (fun i hi p hp => hpm i hi p hp)
  · cases h
    exact fun i hi p hp => hpm i hi p hp

/-- Every scheduler built through the public operations satisfies the
priority/queue agreement invariant assumed by the demotion claim. -/
theorem reachable_prioMatch {m : MLFQ} (h : Reachable m) : PrioMatch m := by
  induction h with
  | new n tq => exact prioMatch_new n tq
  | add _ hstep ih => exact prioMatch_add _ _ _ hstep ih
  | exec _ hstep ih => exact prioMatch_execute _ _ _ hstep ih
  | boost _ hstep ih => exact prioMatch_boost _ _ hstep ih
  | tick _ hstep ih => exact prioMatch_tick _ _ _ hstep ih

theorem work_zeroPrio (p : Process) : work (zeroPrio p) = work p := rfl

theorem work_runProcess (p : Process) (tq : Nat) :
    work (runProcess p tq) = work p := by
  simp only [work, runProcess, executedTimeOf]
  split_ifs with h <;> omega

theorem coe_work_append (a b : List Process) :
    ((a ++ b).map work : Multiset Nat) = (a.map work : Multiset Nat) + (b.map work : Multiset Nat) := by
  rw [List.map_append, ← Multiset.coe_add]

/-- The multiset identity for replacing one queue, at the level of work
values. -/
theorem works_flatten_set (qs : List (List Process)) (i : Nat) (v : List Process)
    (h : i < qs.length) :
    ((qs.set i v).flatten.map work : Multiset Nat) + ((qs.getD i []).map work : Multiset Nat)
      = (qs.flatten.map work : Multiset Nat) + (v.map work : Multiset Nat) := by
  have e := congrArg (Multiset.map work) (coe_flatten_set qs i v h)
  simpa only [Multiset.map_add, Multiset.map_coe] using e

theorem worksOf_add (m : MLFQ) (q : Process) (m' : MLFQ)
    (h : add_process m q = some m') :
    worksOf m' = worksOf m + {work q} := by
  simp only [add_process] at h
  split_ifs at h with h₁ h₂ h₃
  all_goals cases h
  · have e := works_flatten_set m.queues q.priority
      ((m.queues.getD q.priority []) ++ [q]) h₂
    rw [coe_work_append] at e
    have e' : ((m.queues.set q.priority ((m.queues.getD q.priority []) ++ [q])).flatten.map work
          : Multiset Nat) + ((m.queues.getD q.priority []).map work : Multiset Nat)
        = ((m.queues.flatten.map work : Multiset Nat) + (([q].map work : List Nat) : Multiset Nat))
          + ((m.queues.getD q.priority []).map work : Multiset Nat) := by
      rw [e]; abel
    have := add_right_cancel e'
    simpa [worksOf] using this
  · have e := works_flatten_set m.queues (m.num_levels - 1)
      ((m.queues.getD (m.num_levels - 1) []) ++ [q]) h₃
    rw [coe_work_append] at e
    have e' : ((m.queues.set (m.num_levels - 1)
            ((m.queues.getD (m.num_levels - 1) []) ++ [q])).flatten.map work
          : Multiset Nat) + ((m.queues.getD (m.num_levels - 1) []).map work : Multiset Nat)
        = ((m.queues.flatten.map work : Multiset Nat) + (([q].map work : List Nat) : Multiset Nat))
          + ((m.queues.getD (m.num_levels - 1) []).map work : Multiset Nat) := by
      rw [e]; abel
    have := add_right_cancel e'
    simpa [worksOf] using this

theorem work_demoted (p : Process) (tq : Nat) :
    work { id := p.id, priority := p.priority + 1, remaining_time := p.remaining_time - executedTimeOf p tq, total_executed_time := p.total_executed_time + executedTimeOf p tq }
      = work p := by
  simp only [work, executedTimeOf]
  split_ifs with h <;> omega

/-- Removing the popped process: the works multiset after replacing queue `t`
by its `dropLast` is the original minus one copy of `work p`. -/
theorem works_dropLast (m : MLFQ) (t : Nat) (p : Process)
    (hq : t < m.queues.length)
    (hlast : (m.queues.getD t []).getLast? = some p) :
    ((m.queues.set t ((m.queues.getD t []).dropLast)).flatten.map work : Multiset Nat)
        + {work p}
      = (m.queues.flatten.map work : Multiset Nat) := by
  obtain ⟨ys, hys⟩ := List.getLast?_eq_some_iff.mp hlast
  have hdl : (m.queues.getD t []).dropLast = ys := by rw [hys, List.dropLast_concat]
  have e := works_flatten_set m.queues t ((m.queues.getD t []).dropLast) hq
  rw [hdl, hys, coe_work_append] at e
  have e' : ((m.queues.set t ys).flatten.map work : Multiset Nat)
        + (([p].map work : List Nat) : Multiset Nat)
        + ((ys.map work : List Nat) : Multiset Nat)
      = (m.queues.flatten.map work : Multiset Nat)
        + ((ys.map work : List Nat) : Multiset Nat) := by
    rw [← e]
    abel
  have e2 := add_right_cancel e'
  rw [hdl]
  simpa using e2

theorem worksOf_execute (m : MLFQ) (t : Nat) (m' : MLFQ)
    (h : execute_process m t = some m') : worksOf m' ≤ worksOf m := by
  by_cases hq : t < m.queues.length
  · cases hl : (m.queues.getD t []).getLast? with
    | none =>
      simp only [execute_process, if_pos hq, hl] at h
      cases h
      exact le_rfl
    | some p =>
      by_cases ht : t < m.time_quanta.length
      · have hdrop := works_dropLast m t p hq hl
        rcases Nat.eq_zero_or_pos ((runProcess p (m.time_quanta.getD t 0)).remaining_time)
          with hfin | hrem
        · rw [execute_process_eq_finish m t p hq ht hl hfin] at h
          cases h
          refine Multiset.le_iff_exists_add.mpr ⟨{work p}, ?_⟩
          show (m.queues.flatten.map work : Multiset Nat)
            = ((m.queues.set t ((m.queues.getD t []).dropLast)).flatten.map work : Multiset Nat)
              + {work p}
          exact hdrop.symm
        · by_cases hdem : t + 1 < m.num_levels
          · by_cases hlen : t + 1 < m.queues.length
            · rw [execute_process_eq_demote m t p hq ht hl hrem hdem hlen] at h
              cases h
              have hlen₁ : t + 1 < (m.queues.set t ((m.queues.getD t []).dropLast)).length := by
                simpa using hlen
              have e := works_flatten_set (m.queues.set t ((m.queues.getD t []).dropLast))
                (t + 1)
                (((m.queues.set t ((m.queues.getD t []).dropLast)).getD (t + 1) []) ++
                  [{ id := p.id, priority := p.priority + 1, remaining_time := p.remaining_time - executedTimeOf p (m.time_quanta.getD t 0), total_executed_time := p.total_executed_time + executedTimeOf p (m.time_quanta.getD t 0) }])
                hlen₁
              rw [coe_work_append] at e
              have e' : (((m.queues.set t ((m.queues.getD t []).dropLast)).set (t + 1)
                    (((m.queues.set t ((m.queues.getD t []).dropLast)).getD (t + 1) []) ++
                      [{ id := p.id, priority := p.priority + 1, remaining_time := p.remaining_time - executedTimeOf p (m.time_quanta.getD t 0), total_executed_time := p.total_executed_time + executedTimeOf p (m.time_quanta.getD t 0) }])).flatten.map work
                    : Multiset Nat)
                    + (((m.queues.set t ((m.queues.getD t []).dropLast)).getD (t + 1) []).map work
                      : Multiset Nat)
                  = (((m.queues.set t ((m.queues.getD t []).dropLast)).flatten.map work
                      : Multiset Nat) + {work p})
                    + (((m.queues.set t ((m.queues.getD t []).dropLast)).getD (t + 1) []).map work
                      : Multiset Nat) := by
                rw [e]
                have hsing : (([{ id := p.id, priority := p.priority + 1, remaining_time := p.remaining_time - executedTimeOf p (m.time_quanta.getD t 0), total_executed_time := p.total_executed_time + executedTimeOf p (m.time_quanta.getD t 0) }].map work
                  : List Nat) : Multiset Nat) = {work p} := by
                  rw [List.map_singleton, work_demoted p (m.time_quanta.getD t 0),
                    Multiset.coe_singleton]
                rw [hsing]
                abel
              have e2 := add_right_cancel e'
              show (((m.queues.set t ((m.queues.getD t []).dropLast)).set (t + 1)
                  (((m.queues.set t ((m.queues.getD t []).dropLast)).getD (t + 1) []) ++
                    [{ id := p.id, priority := p.priority + 1, remaining_time := p.remaining_time - executedTimeOf p (m.time_quanta.getD t 0), total_executed_time := p.total_executed_time + executedTimeOf p (m.time_quanta.getD t 0) }])).flatten.map work
                  : Multiset Nat)
                ≤ (m.queues.flatten.map work : Multiset Nat)
              rw [e2, ← hdrop]
            · rw [execute_process_eq m t p hq ht hl] at h
              simp only [List.length_set, if_pos hrem, if_pos hdem, if_neg hlen] at h
              exact Option.noConfusion h
          · rw [execute_process_eq_droplowest m t p hq ht hl hrem hdem] at h
            cases h
            refine Multiset.le_iff_exists_add.mpr ⟨{work p}, ?_⟩
            show (m.queues.flatten.map work : Multiset Nat)
              = ((m.queues.set t ((m.queues.getD t []).dropLast)).flatten.map work : Multiset Nat)
                + {work p}
            exact hdrop.symm
      · simp only [execute_process, if_pos hq, hl, if_neg ht] at h
        exact Option.noConfusion h
  · simp only [execute_process, if_neg hq] at h
    exact Option.noConfusion h

theorem worksOf_boost (m m' : MLFQ) (h : priority_boost m = some m') :
    worksOf m' = worksOf m := by
  simp only [priority_boost, Option.map_eq_some'] at h
  obtain ⟨qs', hloop, rfl⟩ := h
  have hpos : ∀ i ∈ List.range' 1 (m.num_levels - 1), 0 < i := by
    intro i hi
    have := List.mem_range'.mp hi
    omega
  exact boostLoop_coe_map work (fun p => rfl) _ m.queues qs' hloop hpos

theorem worksOf_tick (m : MLFQ) (e : Nat) (m' : MLFQ)
    (h : update_time m e = some m') : worksOf m' = worksOf m := by
  simp only [update_time] at h
  split_ifs at h with hb
  · exact worksOf_boost { m with current_time := m.current_time + e } m' h
  · cases h
    rfl

/-- Work accounting over a whole operation sequence: every process still
tracked accounts its work among the works of the initial processes and those
injected by `add` operations along the way. -/
theorem runOps_works_le : ∀ (ops : List Op) (m m' : MLFQ),
    runOps m ops = some m' → worksOf m' ≤ worksOf m + worksAdded ops
  | [], m, m', h => by
    cases h
    simp [runOps, worksAdded]
  | op :: ops, m, m', h => by
    simp only [runOps] at h
    cases hap : applyOp m op with
    | none => rw [hap] at h; exact Option.noConfusion h
    | some m₁ =>
      rw [hap] at h
      simp only [Option.some_bind] at h
      have ih := runOps_works_le ops m₁ m' h
      cases op with
      | add p =>
        have e := worksOf_add m p m₁ hap
        calc worksOf m' ≤ worksOf m₁ + worksAdded ops := ih
          _ = worksOf m + ({work p} + worksAdded ops) := by rw [e]; abel
          _ = worksOf m + worksAdded (Op.add p :: ops) := by
              rw [show worksAdded (Op.add p :: ops) = work p ::ₘ worksAdded ops from rfl,
                ← Multiset.singleton_add]
      | exec i =>
        have e := worksOf_execute m i m₁ hap
        calc worksOf m' ≤ worksOf m₁ + worksAdded ops := ih
          _ ≤ worksOf m + worksAdded ops := add_le_add_right e _
          _ = worksOf m + worksAdded (Op.exec i :: ops) := rfl
      | boost =>
        have e := worksOf_boost m m₁ hap
        calc worksOf m' ≤ worksOf m₁ + worksAdded ops := ih
          _ = worksOf m + worksAdded ops := by rw [e]
          _ = worksOf m + worksAdded (Op.boost :: ops) := rfl
      | tick e =>
        have e' := worksOf_tick m e m₁ hap
        calc worksOf m' ≤ worksOf m₁ + worksAdded ops := ih
          _ = worksOf m + worksAdded ops := by rw [e']
          _ = worksOf m + worksAdded (Op.tick e :: ops) := rfl

end MLFQ

namespace MLFQ

/-- C8: `add_process` appends the process at the tail of queue `priority`
when `priority < num_levels`, otherwise appends it at the tail of the lowest
queue `num_levels - 1` (silent clamp, no rejection); `current_time` is
unchanged in both cases. -/
theorem add_process_classifies (m : MLFQ) (q : Process)
    (hwf : WF m) (hn : 0 < m.num_levels) :
    (q.priority < m.num_levels →
      add_process m q = some { m with
        queues := m.queues.set q.priority ((m.queues.getD q.priority []) ++ [q]) }) ∧
    (m.num_levels ≤ q.priority →
      add_process m q = some { m with
        queues := m.queues.set (m.num_levels - 1)
          ((m.queues.getD (m.num_levels - 1) []) ++ [q]) }) := by
  obtain ⟨hql, -⟩ := hwf
  constructor
  · intro h₁
    simp only [add_process]
    rw [if_pos h₁, if_pos (by omega)]
  · intro h₂
    simp only [add_process]
    rw [if_neg (by omega), if_pos (by omega)]

/-- C9: `execute_process` on a tier index `≥ num_levels` fails fast (the
out-of-bounds indexing panic, modelled as `none`); it does not clamp and does
not mutate any state. -/
theorem execute_process_out_of_range (m : MLFQ) (tier : Nat)
    (hwf : WF m) (h : m.num_levels ≤ tier) :
    execute_process m tier = none := by
  obtain ⟨hql, -⟩ := hwf
  simp only [execute_process]
  rw [if_neg (by omega)]

/-- C1: dispatching a process whose remaining time exceeds the tier's
quantum, with a next tier available, subtracts the quantum from
`remaining_time`, adds it to `total_executed_time` and to `current_time`,
appends the process at the tail of tier `tier + 1`, and sets its `priority`
field to `tier + 1`.  The hypothesis `PrioMatch m` (the process's `priority`
field agrees with its queue index above the lowest tier) holds in every
scheduler built through the public API, by `reachable_prioMatch`. -/
theorem execute_process_demotes_unfinished (m : MLFQ) (tier : Nat) (p : Process)
    (hwf : WF m) (hpm : PrioMatch m)
    (hlast : (m.queues.getD tier []).getLast? = some p)
    (hgt : m.time_quanta.getD tier 0 < p.remaining_time)
    (hdem : tier + 1 < m.num_levels) :
    execute_process m tier = some { m with
      current_time := m.current_time + m.time_quanta.getD tier 0
      queues := (m.queues.set tier ((m.queues.getD tier []).dropLast)).set (tier + 1)
        ((m.queues.getD (tier + 1) []) ++
          [{ id := p.id, priority := tier + 1,
             remaining_time := p.remaining_time - m.time_quanta.getD tier 0,
             total_executed_time :=
               p.total_executed_time + m.time_quanta.getD tier 0 }]) } := by
  obtain ⟨hql, htl⟩ := hwf
  have hq : tier < m.queues.length := by omega
  have ht : tier < m.time_quanta.length := by omega
  have hexe : executedTimeOf p (m.time_quanta.getD tier 0) = m.time_quanta.getD tier 0 := by
    simp only [executedTimeOf]
    rw [if_pos hgt]
  have hrem : 0 < (runProcess p (m.time_quanta.getD tier 0)).remaining_time := by
    have : (runProcess p (m.time_quanta.getD tier 0)).remaining_time
        = p.remaining_time - executedTimeOf p (m.time_quanta.getD tier 0) := rfl
    rw [this, hexe]
    omega
  have hpr : p.priority = tier :=
    hpm tier hdem p (List.mem_of_getLast?_eq_some hlast)
  rw [execute_process_eq_demote m tier p hq ht hlast hrem hdem (by omega)]
  rw [hexe, hpr, getD_set_ne m.queues _ _ (by omega)]

/-- C2: dispatching at the lowest tier a process that still has work left
after its quantum removes it from every queue: it is not re-queued anywhere,
and the total number of tracked processes drops by one. -/
theorem execute_process_drops_at_lowest (m : MLFQ) (p : Process)
    (hwf : WF m) (hn : 0 < m.num_levels)
    (hlast : (m.queues.getD (m.num_levels - 1) []).getLast? = some p)
    (hgt : m.time_quanta.getD (m.num_levels - 1) 0 < p.remaining_time) :
    execute_process m (m.num_levels - 1) = some { m with
      current_time := m.current_time + m.time_quanta.getD (m.num_levels - 1) 0
      queues := m.queues.set (m.num_levels - 1)
        ((m.queues.getD (m.num_levels - 1) []).dropLast) } ∧
    (m.queues.set (m.num_levels - 1)
        ((m.queues.getD (m.num_levels - 1) []).dropLast)).flatten.length + 1
      = m.queues.flatten.length := by
  obtain ⟨hql, htl⟩ := hwf
  have hq : m.num_levels - 1 < m.queues.length := by omega
  have ht : m.num_levels - 1 < m.time_quanta.length := by omega
  have hexe : executedTimeOf p (m.time_quanta.getD (m.num_levels - 1) 0)
      = m.time_quanta.getD (m.num_levels - 1) 0 := by
    simp only [executedTimeOf]
    rw [if_pos hgt]
  have hrem : 0 < (runProcess p (m.time_quanta.getD (m.num_levels - 1) 0)).remaining_time := by
    have : (runProcess p (m.time_quanta.getD (m.num_levels - 1) 0)).remaining_time
        = p.remaining_time - executedTimeOf p (m.time_quanta.getD (m.num_levels - 1) 0) := rfl
    rw [this, hexe]
    omega
  constructor
  · rw [execute_process_eq_droplowest m (m.num_levels - 1) p hq ht hlast hrem (by omega)]
    rw [hexe]
  · have hcard := congrArg Multiset.card
      (coe_flatten_set m.queues (m.num_levels - 1)
        ((m.queues.getD (m.num_levels - 1) []).dropLast) hq)
    simp only [Multiset.card_add, Multiset.coe_card] at hcard
    have hne : m.queues.getD (m.num_levels - 1) [] ≠ [] := by
      intro hc
      rw [hc] at hlast
      exact Option.noConfusion hlast
    have hlen : (m.queues.getD (m.num_levels - 1) []).dropLast.length
        = (m.queues.getD (m.num_levels - 1) []).length - 1 := List.length_dropLast _
    have hpos : 0 < (m.queues.getD (m.num_levels - 1) []).length :=
      List.length_pos.mpr hne
    omega

/-- C3: dispatching a process whose remaining time fits inside the quantum
finishes it: its `remaining_time` becomes 0, its `total_executed_time` grows
by the previous remaining time, and it is removed from every queue (never
re-queued): the tracked-process count drops by one. -/
theorem execute_process_completes_short (m : MLFQ) (tier : Nat) (p : Process)
    (hwf : WF m) (htier : tier < m.num_levels)
    (hlast : (m.queues.getD tier []).getLast? = some p)
    (hle : p.remaining_time ≤ m.time_quanta.getD tier 0) :
    execute_process m tier = some { m with
      current_time := m.current_time + p.remaining_time
      queues := m.queues.set tier ((m.queues.getD tier []).dropLast) } ∧
    (runProcess p (m.time_quanta.getD tier 0)).remaining_time = 0 ∧
    (runProcess p (m.time_quanta.getD tier 0)).total_executed_time
      = p.total_executed_time + p.remaining_time ∧
    (m.queues.set tier ((m.queues.getD tier []).dropLast)).flatten.length + 1
      = m.queues.flatten.length := by
  obtain ⟨hql, htl⟩ := hwf
  have hq : tier < m.queues.length := by omega
  have ht : tier < m.time_quanta.length := by omega
  have hexe : executedTimeOf p (m.time_quanta.getD tier 0) = p.remaining_time := by
    simp only [executedTimeOf]
    rw [if_neg (by omega)]
  have hrem0 : (runProcess p (m.time_quanta.getD tier 0)).remaining_time = 0 := by
    have : (runProcess p (m.time_quanta.getD tier 0)).remaining_time
        = p.remaining_time - executedTimeOf p (m.time_quanta.getD tier 0) := rfl
    rw [this, hexe]
    omega
  refine ⟨?_, hrem0, ?_, ?_⟩
  · rw [execute_process_eq_finish m tier p hq ht hlast hrem0]
    rw [hexe]
  · have : (runProcess p (m.time_quanta.getD tier 0)).total_executed_time
        = p.total_executed_time + executedTimeOf p (m.time_quanta.getD tier 0) := rfl
    rw [this, hexe]
  · have hcard := congrArg Multiset.card
      (coe_flatten_set m.queues tier ((m.queues.getD tier []).dropLast) hq)
    simp only [Multiset.card_add, Multiset.coe_card] at hcard
    have hne : m.queues.getD tier [] ≠ [] := by
      intro hc
      rw [hc] at hlast
      exact Option.noConfusion hlast
    have hlen : (m.queues.getD tier []).dropLast.length
        = (m.queues.getD tier []).length - 1 := List.length_dropLast _
    have hpos : 0 < (m.queues.getD tier []).length := List.length_pos.mpr hne
    omega

/-- C10: with a zero quantum at the dispatched tier and a process that still
has work, the executed amount is 0, so the process's fields and the clock are
unchanged; the process is nevertheless demoted to `tier + 1` when a next
queue exists, and dropped entirely when dispatched at the lowest tier. -/
theorem execute_process_zero_quantum (m : MLFQ) (tier : Nat) (p : Process)
    (hwf : WF m) (htier : tier < m.num_levels)
    (hq0 : m.time_quanta.getD tier 0 = 0)
    (hlast : (m.queues.getD tier []).getLast? = some p)
    (hrem : 0 < p.remaining_time) :
    (tier + 1 < m.num_levels →
      execute_process m tier = some { m with
        queues := (m.queues.set tier ((m.queues.getD tier []).dropLast)).set (tier + 1)
          ((m.queues.getD (tier + 1) []) ++
            [{ id := p.id, priority := p.priority + 1,
               remaining_time := p.remaining_time,
               total_executed_time := p.total_executed_time }]) }) ∧
    (tier + 1 = m.num_levels →
      execute_process m tier = some { m with
        queues := m.queues.set tier ((m.queues.getD tier []).dropLast) }) := by
  obtain ⟨hql, htl⟩ := hwf
  have hq : tier < m.queues.length := by omega
  have ht : tier < m.time_quanta.length := by omega
  have hexe : executedTimeOf p (m.time_quanta.getD tier 0) = 0 := by
    simp only [executedTimeOf, hq0]
    rw [if_pos hrem]
  have hrem' : 0 < (runProcess p (m.time_quanta.getD tier 0)).remaining_time := by
    have : (runProcess p (m.time_quanta.getD tier 0)).remaining_time
        = p.remaining_time - executedTimeOf p (m.time_quanta.getD tier 0) := rfl
    rw [this, hexe]
    omega
  constructor
  · intro hdem
    rw [execute_process_eq_demote m tier p hq ht hlast hrem' hdem (by omega)]
    rw [hexe, getD_set_ne m.queues _ _ (by omega)]
    simp only [Nat.add_zero, Nat.sub_zero]
  · intro hlow
    rw [execute_process_eq_droplowest m tier p hq ht hlast hrem' (by omega)]
    rw [hexe]
    simp only [Nat.add_zero]

end MLFQ

namespace MLFQ

/-- C4: the process selected by `execute_process` is the most recently added
one of the tier (the tail of the queue is removed and executed — LIFO), and
dispatching an empty valid tier is a no-op with no error and no state
change. -/
theorem execute_process_lifo_or_noop (m : MLFQ) (tier : Nat)
    (hwf : WF m) (htier : tier < m.num_levels) :
    (m.queues.getD tier [] = [] → execute_process m tier = some m) ∧
    (m.queues.getD tier [] ≠ [] →
      (execute_process m tier).isSome = true ∧
      ((execute_process m tier).getD m).queues.getD tier []
        = (m.queues.getD tier []).dropLast ∧
      ((execute_process m tier).getD m).current_time
        = m.current_time
          + executedTimeOf
              ((m.queues.getD tier []).getLastD
                { id := 0, priority := 0, remaining_time := 0, total_executed_time := 0 })
              (m.time_quanta.getD tier 0)) := by
  obtain ⟨hql, htl⟩ := hwf
  have hq : tier < m.queues.length := by omega
  have ht : tier < m.time_quanta.length := by omega
  constructor
  · intro hemp
    simp only [execute_process]
    rw [if_pos hq, hemp]
    rfl
  · intro hne
    obtain ⟨x, hx⟩ : ∃ x, (m.queues.getD tier []).getLast? = some x := by
      cases hgl : (m.queues.getD tier []).getLast? with
      | none => exact absurd (List.getLast?_eq_none_iff.mp hgl) hne
      | some y => exact ⟨y, rfl⟩
    have hgld : (m.queues.getD tier []).getLastD
        { id := 0, priority := 0, remaining_time := 0, total_executed_time := 0 } = x := by
      rw [List.getLastD_eq_getLast?, hx]
      rfl
    rcases Nat.eq_zero_or_pos ((runProcess x (m.time_quanta.getD tier 0)).remaining_time)
      with hfin | hrem
    · rw [execute_process_eq_finish m tier x hq ht hx hfin]
      refine ⟨rfl, ?_, ?_⟩
      · show (m.queues.set tier ((m.queues.getD tier []).dropLast)).getD tier []
          = (m.queues.getD tier []).dropLast
        exact getD_set_self _ _ _ _ hq
      · show m.current_time + executedTimeOf x (m.time_quanta.getD tier 0) = _
        rw [hgld]
    · by_cases hdem : tier + 1 < m.num_levels
      · rw [execute_process_eq_demote m tier x hq ht hx hrem hdem (by omega)]
        refine ⟨rfl, ?_, ?_⟩
        · show ((m.queues.set tier ((m.queues.getD tier []).dropLast)).set (tier + 1)
              (((m.queues.set tier ((m.queues.getD tier []).dropLast)).getD (tier + 1) []) ++
                [{ id := x.id, priority := x.priority + 1,
                   remaining_time := x.remaining_time - executedTimeOf x (m.time_quanta.getD tier 0),
                   total_executed_time :=
                     x.total_executed_time
                       + executedTimeOf x (m.time_quanta.getD tier 0) }])).getD tier []
            = (m.queues.getD tier []).dropLast
          rw [getD_set_ne _ _ _ (by omega)]
          exact getD_set_self _ _ _ _ hq
        · show m.current_time + executedTimeOf x (m.time_quanta.getD tier 0) = _
          rw [hgld]
      · rw [execute_process_eq_droplowest m tier x hq ht hx hrem hdem]
        refine ⟨rfl, ?_, ?_⟩
        · show (m.queues.set tier ((m.queues.getD tier []).dropLast)).getD tier []
            = (m.queues.getD tier []).dropLast
          exact getD_set_self _ _ _ _ hq
        · show m.current_time + executedTimeOf x (m.time_quanta.getD tier 0) = _
          rw [hgld]

/-- C5: `update_time e` adds `e` to `current_time` first, and then performs a
priority boost exactly when the updated clock `current_time_before + e` is a
multiple of 100; otherwise the queues are left unchanged. -/
theorem update_time_clock_and_boost (m : MLFQ) (e : Nat) (m' : MLFQ)
    (h : update_time m e = some m') :
    m'.current_time = m.current_time + e ∧
    ((m.current_time + e) % 100 = 0 →
      priority_boost { m with current_time := m.current_time + e } = some m') ∧
    ((m.current_time + e) % 100 ≠ 0 →
      m' = { m with current_time := m.current_time + e }) := by
  simp only [update_time] at h
  split_ifs at h with hb
  · have hfields := priority_boost_fields _ _ h
    refine ⟨?_, fun _ => h, fun hne => absurd hb hne⟩
    rw [hfields.2.2]
  · cases h
    exact ⟨rfl, fun hc => absurd hc hb, fun _ => rfl⟩

end MLFQ

namespace MLFQ

/-- C6: after `priority_boost`, tiers 1..num_levels-1 are all empty; tier 0
holds exactly its previous contents plus, as a multiset, every process
previously in tiers 1.., each moved process having its `priority` field set
to 0; the tracked-process count is preserved; and no process's
`remaining_time` or `total_executed_time` changes. -/
theorem priority_boost_collects_tier_zero (m m' : MLFQ)
    (hwf : WF m) (h : priority_boost m = some m') :
    m'.queues.length = m.queues.length ∧
    m'.queues.drop 1 = List.replicate (m.num_levels - 1) [] ∧
    (m'.queues.getD 0 [] : Multiset Process)
      = (m.queues.getD 0 [] : Multiset Process)
        + ((m.queues.drop 1).flatten.map zeroPrio : Multiset Process) ∧
    numProcs m' = numProcs m ∧
    (m'.queues.flatten.map (fun p => (p.remaining_time, p.total_executed_time))
        : Multiset (Nat × Nat))
      = (m.queues.flatten.map (fun p => (p.remaining_time, p.total_executed_time))
        : Multiset (Nat × Nat)) := by
  obtain ⟨hql, -⟩ := hwf
  simp only [priority_boost, Option.map_eq_some'] at h
  obtain ⟨qs', hloop, rfl⟩ := h
  have hpos : ∀ i ∈ List.range' 1 (m.num_levels - 1), 0 < i := by
    intro i hi
    have := List.mem_range'.mp hi
    omega
  obtain ⟨hlen, hmem, hother, hzero⟩ :=
    boostLoop_spec _ m.queues qs' hloop (List.nodup_range' 1 _) hpos
  have hpairs := boostLoop_coe_map (fun p => (p.remaining_time, p.total_executed_time))
    (fun p => rfl) _ m.queues qs' hloop hpos
  refine ⟨hlen, ?_, ?_, ?_, ?_⟩
  · show qs'.drop 1 = List.replicate (m.num_levels - 1) []
    apply List.ext_getElem
    · simp only [List.length_drop, List.length_replicate, hlen, hql]
    · intro j h₁ h₂
      have hjlt : j < m.num_levels - 1 := by
        simp only [List.length_drop, hlen, hql] at h₁
        exact h₁
      have hj : 1 + j ∈ List.range' 1 (m.num_levels - 1) := by
        rw [List.mem_range']
        exact ⟨j, hjlt, by omega⟩
      have hb : 1 + j < qs'.length := by
        simp only [List.length_drop] at h₁
        omega
      rw [List.getElem_drop, List.getElem_replicate]
      have hgd : qs'.getD (1 + j) [] = [] := hmem (1 + j) hj
      rw [List.getD_eq_getElem?_getD, List.getElem?_eq_getElem hb] at hgd
      simpa using hgd
  · show (qs'.getD 0 [] : Multiset Process)
      = (m.queues.getD 0 [] : Multiset Process)
        + ((m.queues.drop 1).flatten.map zeroPrio : Multiset Process)
    have hn1 : m.num_levels - 1 = m.queues.length - 1 := by omega
    rw [hzero, hn1]
    congr 1
    rw [show (List.range' 1 (m.queues.length - 1)).map
          (fun i => (m.queues.getD i []).map zeroPrio)
        = ((List.range' 1 (m.queues.length - 1)).map (fun i => m.queues.getD i [])).map
            (List.map zeroPrio) by
      rw [List.map_map]
      rfl]
    rw [map_getD_range'_one, ← List.map_flatten]
  · show numProcs { m with queues := qs' } = numProcs m
    have hcard := congrArg Multiset.card hpairs
    simp only [Multiset.coe_card, List.length_map] at hcard
    simpa [numProcs] using hcard
  · show (qs'.flatten.map (fun p => (p.remaining_time, p.total_executed_time))
        : Multiset (Nat × Nat))
      = (m.queues.flatten.map (fun p => (p.remaining_time, p.total_executed_time))
        : Multiset (Nat × Nat))
    exact hpairs

/-- C7: conservation of work.  Over any sequence of public operations, every
still-tracked process accounts its `remaining_time + total_executed_time`
among the work values of the initial and injected processes (no operation
ever changes the sum), and one dispatch step moves exactly the executed
amount from `remaining_time` to `total_executed_time`, preserving the sum. -/
theorem work_conservation (m : MLFQ) (ops : List Op) (m' : MLFQ)
    (p : Process) (tq : Nat) (h : runOps m ops = some m') :
    worksOf m' ≤ worksOf m + worksAdded ops ∧
    work (runProcess p tq) = work p :=
  ⟨runOps_works_le ops m m' h, work_runProcess p tq⟩

end MLFQ

namespace MLFQ

theorem execute_process_demotes_unfinished_witness :
    execute_process ⟨[[⟨1, 0, 5, 0⟩], [], []], 3, [2, 4, 8], 0⟩ 0
      = some ⟨[[], [⟨1, 1, 3, 2⟩], []], 3, [2, 4, 8], 2⟩ :=
  execute_process_demotes_unfinished ⟨[[⟨1, 0, 5, 0⟩], [], []], 3, [2, 4, 8], 0⟩ 0 ⟨1, 0, 5, 0⟩
    (by decide)
    (by
      intro i hi p hp
      have hi' : i + 1 < 3 := hi
      have hi2 : i < 2 := by omega
      interval_cases i <;> simp_all)
    rfl (by decide) (by decide)

theorem execute_process_drops_at_lowest_witness :
    execute_process ⟨[[], [], [⟨9, 2, 20, 0⟩]], 3, [2, 4, 8], 0⟩ 2
      = some ⟨[[], [], []], 3, [2, 4, 8], 8⟩ ∧ 0 + 1 = 1 :=
  execute_process_drops_at_lowest ⟨[[], [], [⟨9, 2, 20, 0⟩]], 3, [2, 4, 8], 0⟩ ⟨9, 2, 20, 0⟩
    (by decide) (by decide) rfl (by decide)

theorem execute_process_completes_short_witness :
    execute_process ⟨[[⟨1, 0, 5, 0⟩], [], []], 3, [6, 4, 8], 0⟩ 0
      = some ⟨[[], [], []], 3, [6, 4, 8], 5⟩ ∧
    (runProcess ⟨1, 0, 5, 0⟩ 6).remaining_time = 0 ∧
    (runProcess ⟨1, 0, 5, 0⟩ 6).total_executed_time = 5 ∧
    0 + 1 = 1 :=
  execute_process_completes_short ⟨[[⟨1, 0, 5, 0⟩], [], []], 3, [6, 4, 8], 0⟩ 0 ⟨1, 0, 5, 0⟩
    (by decide) (by decide) rfl (by decide)

theorem execute_process_lifo_or_noop_witness :
    ([(⟨1, 0, 5, 0⟩ : Process)] = [] →
      execute_process ⟨[[⟨1, 0, 5, 0⟩], [], []], 3, [2, 4, 8], 0⟩ 0
        = some ⟨[[⟨1, 0, 5, 0⟩], [], []], 3, [2, 4, 8], 0⟩) ∧
    ([(⟨1, 0, 5, 0⟩ : Process)] ≠ [] →
      (execute_process ⟨[[⟨1, 0, 5, 0⟩], [], []], 3, [2, 4, 8], 0⟩ 0).isSome = true ∧
      ((execute_process ⟨[[⟨1, 0, 5, 0⟩], [], []], 3, [2, 4, 8], 0⟩ 0).getD
          ⟨[[⟨1, 0, 5, 0⟩], [], []], 3, [2, 4, 8], 0⟩).queues.getD 0 [] = [] ∧
      ((execute_process ⟨[[⟨1, 0, 5, 0⟩], [], []], 3, [2, 4, 8], 0⟩ 0).getD
          ⟨[[⟨1, 0, 5, 0⟩], [], []], 3, [2, 4, 8], 0⟩).current_time = 2) :=
  execute_process_lifo_or_noop ⟨[[⟨1, 0, 5, 0⟩], [], []], 3, [2, 4, 8], 0⟩ 0
    (by decide) (by decide)

theorem update_time_clock_and_boost_witness :
    (⟨[[⟨1, 0, 5, 3⟩], [], []], 3, [2, 4, 8], 100⟩ : MLFQ).current_time = 100 ∧
    (100 % 100 = 0 →
      priority_boost ⟨[[], [⟨1, 1, 5, 3⟩], []], 3, [2, 4, 8], 100⟩
        = some ⟨[[⟨1, 0, 5, 3⟩], [], []], 3, [2, 4, 8], 100⟩) ∧
    (100 % 100 ≠ 0 →
      (⟨[[⟨1, 0, 5, 3⟩], [], []], 3, [2, 4, 8], 100⟩ : MLFQ)
        = ⟨[[], [⟨1, 1, 5, 3⟩], []], 3, [2, 4, 8], 100⟩) :=
  update_time_clock_and_boost ⟨[[], [⟨1, 1, 5, 3⟩], []], 3, [2, 4, 8], 0⟩ 100
    ⟨[[⟨1, 0, 5, 3⟩], [], []], 3, [2, 4, 8], 100⟩ rfl

theorem priority_boost_collects_tier_zero_witness :
    (⟨[[⟨1, 0, 5, 3⟩], [], []], 3, [2, 4, 8], 100⟩ : MLFQ).queues.length
      = (⟨[[], [⟨1, 1, 5, 3⟩], []], 3, [2, 4, 8], 100⟩ : MLFQ).queues.length ∧
    (⟨[[⟨1, 0, 5, 3⟩], [], []], 3, [2, 4, 8], 100⟩ : MLFQ).queues.drop 1
      = List.replicate 2 [] ∧
    ((⟨[[⟨1, 0, 5, 3⟩], [], []], 3, [2, 4, 8], 100⟩ : MLFQ).queues.getD 0 [] : Multiset Process)
      = ((⟨[[], [⟨1, 1, 5, 3⟩], []], 3, [2, 4, 8], 100⟩ : MLFQ).queues.getD 0 []
          : Multiset Process)
        + (((⟨[[], [⟨1, 1, 5, 3⟩], []], 3, [2, 4, 8], 100⟩ : MLFQ).queues.drop 1).flatten.map
            zeroPrio : Multiset Process) ∧
    numProcs ⟨[[⟨1, 0, 5, 3⟩], [], []], 3, [2, 4, 8], 100⟩
      = numProcs ⟨[[], [⟨1, 1, 5, 3⟩], []], 3, [2, 4, 8], 100⟩ ∧
    ((⟨[[⟨1, 0, 5, 3⟩], [], []], 3, [2, 4, 8], 100⟩ : MLFQ).queues.flatten.map
        (fun p => (p.remaining_time, p.total_executed_time)) : Multiset (Nat × Nat))
      = ((⟨[[], [⟨1, 1, 5, 3⟩], []], 3, [2, 4, 8], 100⟩ : MLFQ).queues.flatten.map
          (fun p => (p.remaining_time, p.total_executed_time)) : Multiset (Nat × Nat)) :=
  priority_boost_collects_tier_zero ⟨[[], [⟨1, 1, 5, 3⟩], []], 3, [2, 4, 8], 100⟩
    ⟨[[⟨1, 0, 5, 3⟩], [], []], 3, [2, 4, 8], 100⟩ (by decide) rfl

theorem work_conservation_witness :
    worksOf ⟨[[⟨1, 0, 3, 2⟩], [], []], 3, [2, 4, 8], 52⟩
      ≤ worksOf (MLFQ.new 3 [2, 4, 8])
        + worksAdded [Op.add ⟨1, 0, 5, 0⟩, Op.exec 0, Op.boost, Op.tick 50] ∧
    work (runProcess ⟨1, 0, 5, 0⟩ 2) = work ⟨1, 0, 5, 0⟩ :=
  work_conservation (MLFQ.new 3 [2, 4, 8])
    [Op.add ⟨1, 0, 5, 0⟩, Op.exec 0, Op.boost, Op.tick 50]
    ⟨[[⟨1, 0, 3, 2⟩], [], []], 3, [2, 4, 8], 52⟩ ⟨1, 0, 5, 0⟩ 2 rfl

theorem add_process_classifies_witness :
    ((5 : Nat) < 2 →
      add_process (MLFQ.new 2 [3, 3]) ⟨7, 5, 4, 0⟩ = some ⟨[[], []], 2, [3, 3], 0⟩) ∧
    (2 ≤ (5 : Nat) →
      add_process (MLFQ.new 2 [3, 3]) ⟨7, 5, 4, 0⟩
        = some ⟨[[], [⟨7, 5, 4, 0⟩]], 2, [3, 3], 0⟩) :=
  add_process_classifies (MLFQ.new 2 [3, 3]) ⟨7, 5, 4, 0⟩ (by decide) (by decide)

theorem execute_process_out_of_range_witness :
    execute_process (MLFQ.new 3 [2, 4, 8]) 5 = none :=
  execute_process_out_of_range (MLFQ.new 3 [2, 4, 8]) 5 (by decide) (by decide)

theorem execute_process_zero_quantum_witness :
    ((1 : Nat) < 3 →
      execute_process ⟨[[⟨1, 0, 5, 0⟩], [], []], 3, [0, 4, 8], 0⟩ 0
        = some ⟨[[], [⟨1, 1, 5, 0⟩], []], 3, [0, 4, 8], 0⟩) ∧
    ((1 : Nat) = 3 →
      execute_process ⟨[[⟨1, 0, 5, 0⟩], [], []], 3, [0, 4, 8], 0⟩ 0
        = some ⟨[[], [], []], 3, [0, 4, 8], 0⟩) :=
  execute_process_zero_quantum ⟨[[⟨1, 0, 5, 0⟩], [], []], 3, [0, 4, 8], 0⟩ 0 ⟨1, 0, 5, 0⟩
    (by decide) (by decide) rfl rfl (by decide)

end MLFQ
